import Mathlib

/-!
Verification of the stock-determination engine of `monitor.py`
(product-availability-check repository).

The classifier is embedded shallowly:

* `check_shopify_json_availability` (monitor.py lines 95-132) scans the raw
  decoded page text with two regular-expression patterns
  (`"available"\s*:\s*(true|false)` and `"availableForSale"\s*:\s*(true|false)`,
  case-insensitive, `re.findall` non-overlapping left-to-right semantics) and
  a fallback `"variants"\s*:\s*\[(.*?)\]` search.  The regexes are embedded as
  executable scanners over `List Char`.  Whitespace (`\s`) and lower-casing are
  modelled on their ASCII fragments (the Python originals additionally accept
  non-ASCII whitespace/case, which none of the claims exercise).
* `is_in_stock` (lines 135-184) additionally consults the BeautifulSoup parse
  of the page.  BeautifulSoup is an external library, so the parsed document is
  modelled post-parse: a `Content` carries the decoded text (`htmlStr`), the
  extracted visible text (`soup.get_text(separator=" ", strip=True)`, field
  `fullText`) and the document-order list of tags, each with its tag name,
  stripped text (`get_text(strip=True)`), the value of its `disabled`
  attribute (`none` when absent; the bs4 html.parser stores `""` for a
  valueless attribute) and its multi-valued `class` attribute (`[]` when
  absent, as `tag.get('class', [])`).
* network fetching (`requests.get`) is an external collaborator and is passed
  to `check_stock` / `check_all_products` as an oracle `String → Except Unit _`;
  an `Except.error` models a raised exception.
-/

/-- Python `\s` on its ASCII fragment: the whitespace class used by the
`re` patterns of `check_shopify_json_availability`. -/
def isPySpace (c : Char) : Bool :=
  c = ' ' || c = '\t' || c = '\n' || c = '\r' || c = '\x0b' || c = '\x0c'

/-- Case-insensitive equality of two character lists, the matching mode that
`re.IGNORECASE` applies to every literal of the scalar patterns. -/
def eqCIb : List Char → List Char → Bool
  | [], [] => true
  | c :: cs, k :: ks => (c.toLower == k.toLower) && eqCIb cs ks
  | _, _ => false

/-- Consume a case-insensitive occurrence of `ks` from the front of `cs`,
returning the rest of the input. -/
def stripPrefixCI : List Char → List Char → Option (List Char)
  | [], cs => some cs
  | _ :: _, [] => none
  | k :: ks, c :: cs => if c.toLower == k.toLower then stripPrefixCI ks cs else none

/-- Consume a case-sensitive occurrence of `ks` from the front of `cs`
(the `"variants"` pattern carries no `re.IGNORECASE` flag). -/
def stripLit : List Char → List Char → Option (List Char)
  | [], cs => some cs
  | _ :: _, [] => none
  | k :: ks, c :: cs => if c == k then stripLit ks cs else none

/-- Split a character list into its maximal leading whitespace run and the
rest, the deterministic reading of a greedy `\s*` whose successor in the
pattern is never a whitespace character. -/
def splitWs : List Char → List Char × List Char
  | [] => ([], [])
  | c :: cs =>
    if isPySpace c then
      let p := splitWs cs
      (c :: p.1, p.2)
    else ([], c :: cs)

/-- The key of regex pattern 1, `"available"`. -/
def availKey : List Char := ['"', 'a', 'v', 'a', 'i', 'l', 'a', 'b', 'l', 'e', '"']

/-- The key of regex pattern 2, `"availableForSale"`. -/
def afsKey : List Char :=
  ['"', 'a', 'v', 'a', 'i', 'l', 'a', 'b', 'l', 'e', 'F', 'o', 'r', 'S', 'a', 'l', 'e', '"']

/-- The literal of the first regex alternative, `true`. -/
def trueLit : List Char := ['t', 'r', 'u', 'e']

/-- The literal of the second regex alternative, `false`. -/
def falseLit : List Char := ['f', 'a', 'l', 's', 'e']

/-- The key of the variant-array pattern, `"variants"` (case-sensitive). -/
def variantsKey : List Char := ['"', 'v', 'a', 'r', 'i', 'a', 'n', 't', 's', '"']

/-- Match the alternation `(true|false)` (case-insensitive, `true` tried
first) at the front of the input, capturing which alternative matched. -/
def matchBool (cs : List Char) : Option (Bool × List Char) :=
  match stripPrefixCI trueLit cs with
  | some rem => some (true, rem)
  | none =>
    match stripPrefixCI falseLit cs with
    | some rem => some (false, rem)
    | none => none

/-- Match one occurrence of `key\s*:\s*(true|false)` (case-insensitive) at the
front of the input; the captured group is returned as a `Bool` (Python lowers
the captured text before comparing it with `'true'`). -/
def matchScalar (key : List Char) (cs : List Char) : Option (Bool × List Char) :=
  match stripPrefixCI key cs with
  | none => none
  | some cs1 =>
    match (splitWs cs1).2 with
    | [] => none
    | c :: cs3 => if c = ':' then matchBool (splitWs cs3).2 else none

/-- Left-to-right non-overlapping scan collecting every captured group, the
semantics of `re.findall`.  The fuel argument (instantiated with the input
length) makes the recursion structural; a successful match always consumes at
least one character, so the fuel never runs out. -/
def scanScalarAux (key : List Char) : Nat → List Char → List Bool
  | 0, _ => []
  | _ + 1, [] => []
  | fuel + 1, c :: cs =>
    match matchScalar key (c :: cs) with
    | some (b, rem) => b :: scanScalarAux key fuel rem
    | none => scanScalarAux key fuel cs

/-- All captured groups of `re.findall(pattern, html, re.IGNORECASE)` for a
scalar availability pattern with the given key. -/
def findallScalar (key : List Char) (cs : List Char) : List Bool :=
  scanScalarAux key cs.length cs

/-- Match `"variants"\s*:\s*\[` at the front of the input, returning what
follows the opening bracket. -/
def matchVariantHead (cs : List Char) : Option (List Char) :=
  match stripLit variantsKey cs with
  | none => none
  | some cs1 =>
    match (splitWs cs1).2 with
    | [] => none
    | c :: cs3 =>
      if c = ':' then
        match (splitWs cs3).2 with
        | [] => none
        | d :: cs5 => if d = '[' then some cs5 else none
      else none

/-- The shortest (non-greedy `(.*?)`) capture up to the first `]`, with
`re.DOTALL` letting it span newlines; `none` when no `]` follows. -/
def takeUntilRB : List Char → Option (List Char)
  | [] => none
  | c :: cs => if c = ']' then some [] else (takeUntilRB cs).map (c :: ·)

/-- Leftmost match of `re.search(r'"variants"\s*:\s*\[(.*?)\]', html,
re.DOTALL)`, returning the captured group: the first position where the head
pattern matches and a closing `]` exists further on. -/
def variantSearch : List Char → Option (List Char)
  | [] => none
  | c :: cs =>
    match matchVariantHead (c :: cs) with
    | some rest =>
      match takeUntilRB rest with
      | some content => some content
      | none => variantSearch cs
    | none => variantSearch cs

/-- Boolean prefix test used by the substring test below. -/
def leadsWith : List Char → List Char → Bool
  | [], _ => true
  | _ :: _, [] => false
  | n :: ns, c :: cs => n == c && leadsWith ns cs

/-- Python's `needle in hay` substring test on decoded text. -/
def hasSubstr (needle : List Char) : List Char → Bool
  | [] => needle.isEmpty
  | c :: cs => leadsWith needle (c :: cs) || hasSubstr needle cs

/-- ASCII lower-casing of a character list, modelling `str.lower()` on the
ASCII fragment that the classifier's comparisons exercise. -/
def lowerL (l : List Char) : List Char := l.map Char.toLower

/-- The literal `"available":true`, tested against the variant capture. -/
def litAvailTrue : List Char :=
  ['"', 'a', 'v', 'a', 'i', 'l', 'a', 'b', 'l', 'e', '"', ':', 't', 'r', 'u', 'e']

/-- The literal `"available": true`, tested against the variant capture. -/
def litAvailSpTrue : List Char :=
  ['"', 'a', 'v', 'a', 'i', 'l', 'a', 'b', 'l', 'e', '"', ':', ' ', 't', 'r', 'u', 'e']

/-- The literal `"available":false`, tested against the variant capture. -/
def litAvailFalse : List Char :=
  ['"', 'a', 'v', 'a', 'i', 'l', 'a', 'b', 'l', 'e', '"', ':', 'f', 'a', 'l', 's', 'e']

/-- The literal `"available": false`, tested against the variant capture. -/
def litAvailSpFalse : List Char :=
  ['"', 'a', 'v', 'a', 'i', 'l', 'a', 'b', 'l', 'e', '"', ':', ' ', 'f', 'a', 'l', 's', 'e']

/-- Embedding of `check_shopify_json_availability` (monitor.py lines 95-132):
try pattern 1 (`"available"`), then pattern 2 (`"availableForSale"`); the
first pattern with any match decides — available iff any captured group is
`true`.  Otherwise fall back to the `"variants"` array search and plain
substring tests on its capture.  Returns `(is_shopify_site, is_available)`. -/
def check_shopify_json_availability (html : String) : Bool × Bool :=
  match findallScalar availKey html.data with
  | b :: bs => (true, (b :: bs).contains true)
  | [] =>
    match findallScalar afsKey html.data with
    | b :: bs => (true, (b :: bs).contains true)
    | [] =>
      match variantSearch html.data with
      | none => (false, false)
      | some content =>
        if hasSubstr litAvailTrue content || hasSubstr litAvailSpTrue content then
          (true, true)
        else if hasSubstr litAvailFalse content || hasSubstr litAvailSpFalse content then
          (true, false)
        else (false, false)

/-- The simplified function of claim C9: `check_shopify_json_availability`
with the variant-array fallback removed, answering `(false, false)` whenever
the two scalar patterns have no match. -/
def check_shopify_scalar_only (html : String) : Bool × Bool :=
  match findallScalar availKey html.data with
  | b :: bs => (true, (b :: bs).contains true)
  | [] =>
    match findallScalar afsKey html.data with
    | b :: bs => (true, (b :: bs).contains true)
    | [] => (false, false)

/-- One parsed element of the BeautifulSoup tree, restricted to the data
`is_in_stock` reads: tag name, `get_text(strip=True)`, the `disabled`
attribute value (`none` when absent) and the `class` list. -/
structure Tag where
  name : String
  text : String
  disabled : Option String
  classes : List String
  deriving DecidableEq

/-- The BeautifulSoup parse of the page, restricted to what `is_in_stock`
reads: the visible text `get_text(separator=" ", strip=True)` and the tags in
document order (the traversal order of `soup.find`). -/
structure Soup where
  fullText : String
  tags : List Tag
  deriving DecidableEq

/-- Page content after decoding and parsing: `htmlStr` is
`html.decode('utf-8', errors='ignore')`; `soup` is `BeautifulSoup(html,
"html.parser")`. -/
structure Content where
  htmlStr : String
  soup : Soup
  deriving DecidableEq

/-- `DEFAULT_OUT_OF_STOCK_KEYWORDS` (monitor.py line 42). -/
def DEFAULT_OUT_OF_STOCK_KEYWORDS : List String :=
  ["Coming Soon", "Out of Stock", "Sold Out", "Notify Me", "Currently Unavailable"]

/-- Tier 2 of `is_in_stock` (lines 162-167): some configured keyword occurs
case-insensitively in the visible text.  The source's loop returns `False` on
the first hit, which is observationally `List.any`. -/
def keywordHit (kws : List String) (fullText : String) : Bool :=
  kws.any fun kw => hasSubstr (lowerL kw.data) (lowerL fullText.data)

/-- The predicate of the `soup.find` lambda (lines 170-173): a button, input
or link whose stripped text is `add to cart`, `buy now` or `add to bag` after
lower-casing. -/
def isCartControl (t : Tag) : Bool :=
  (t.name == "button" || t.name == "input" || t.name == "a")
    && (lowerL t.text.data == ['a', 'd', 'd', ' ', 't', 'o', ' ', 'c', 'a', 'r', 't']
      || lowerL t.text.data == ['b', 'u', 'y', ' ', 'n', 'o', 'w']
      || lowerL t.text.data == ['a', 'd', 'd', ' ', 't', 'o', ' ', 'b', 'a', 'g'])

/-- Python truthiness of `tag.get('disabled')`: the attribute is present with
a non-empty value (`None` and `''` are both falsy). -/
def pyTruthyStr : Option String → Bool
  | none => false
  | some s => !s.isEmpty

/-- The disabled test of line 177: `add_to_cart.get('disabled') or 'disabled'
in add_to_cart.get('class', [])`. -/
def tagDisabledCheck (t : Tag) : Bool :=
  pyTruthyStr t.disabled || t.classes.contains "disabled"

/-- Embedding of `is_in_stock` (monitor.py lines 135-184): tier 1 structured
data (final when detected), tier 2 keyword scan, tier 3 first actionable
control (enabled/disabled decides), conservative `false` default.  `none` for
the keyword argument models the Python default parameter `None`. -/
def is_in_stock (content : Content) (out_of_stock_keywords : Option (List String)) : Bool :=
  let kws := out_of_stock_keywords.getD DEFAULT_OUT_OF_STOCK_KEYWORDS
  match check_shopify_json_availability content.htmlStr with
  | (true, is_available) => is_available
  | (false, _) =>
    if keywordHit kws content.soup.fullText then false
    else
      match content.soup.tags.find? isCartControl with
      | some t => if tagDisabledCheck t then false else true
      | none => false

/-- Per-target status of the daily digest. -/
inductive DigestStatus where
  | inStock
  | outOfStock
  | unknown
  | errorChecking
  deriving DecidableEq

/-- The per-target status computation of `send_daily_report` (monitor.py
lines 285-296): only `check_shopify_json_availability` is consulted; a
non-structured page is reported `Unknown`; a raised exception (modelled as
`Except.error`) is reported `Error checking`. -/
def digestStatus (fetched : Except Unit String) : DigestStatus :=
  match fetched with
  | Except.error _ => DigestStatus.errorChecking
  | Except.ok html_str =>
    match check_shopify_json_availability html_str with
    | (true, true) => DigestStatus.inStock
    | (true, false) => DigestStatus.outOfStock
    | (false, _) => DigestStatus.unknown

/-- A configured monitored target, the dictionary read by `check_stock`:
`product.get("name", ...)`, `product.get("url")` and
`product.get("out_of_stock_keywords", DEFAULT_OUT_OF_STOCK_KEYWORDS)`. -/
structure Product where
  name : Option String
  url : Option String
  keywords : Option (List String)
  deriving DecidableEq

/-- Embedding of `check_stock` (monitor.py lines 187-219).  The network fetch
is an oracle: `Except.error` models `requests.get` or `raise_for_status`
raising, which the source catches and converts into `False`; a missing or
empty URL (`if not url`) also yields `False`. -/
def check_stock (fetch : String → Except Unit Content) (product : Product) : Bool :=
  match product.url with
  | none => false
  | some url =>
    if url = "" then false
    else
      match fetch url with
      | Except.error _ => false
      | Except.ok content =>
        is_in_stock content (some (product.keywords.getD DEFAULT_OUT_OF_STOCK_KEYWORDS))

/-- The name key used by `check_all_products`: `product.get("name", "Unknown")`. -/
def pname (product : Product) : String := product.name.getD "Unknown"

/-- Insertion into a Python dict rendered as an insertion-ordered association
list: an existing key keeps its position and gets the new value. -/
def dictInsert (k : String) (v : Bool) : List (String × Bool) → List (String × Bool)
  | [] => [(k, v)]
  | (k', v') :: rest => if k' = k then (k, v) :: rest else (k', v') :: dictInsert k v rest

/-- Embedding of `check_all_products` (monitor.py lines 222-238): evaluate
`check_stock` for every configured product in order, collecting the results
in a dict keyed by product name. -/
def check_all_products (fetch : String → Except Unit Content) (products : List Product) :
    List (String × Bool) :=
  products.foldl (fun acc p => dictInsert (pname p) (check_stock fetch p) acc) []

/-- Element lookup by position (`none` past the end), a proof-side helper for
locating characters inside regex matches. -/
def nthc : List Char → Nat → Option Char
  | [], _ => none
  | c :: _, 0 => some c
  | _ :: l, n + 1 => nthc l n

/-- Last element of a character list, a proof-side helper. -/
def lastc : List Char → Option Char
  | [] => none
  | [c] => some c
  | _ :: c :: l => lastc (c :: l)

/-- Case-insensitively equal lists have equal length. -/
theorem eqCIb_length {a b : List Char} (h : eqCIb a b = true) : a.length = b.length := by
  induction a generalizing b with
  | nil => cases b with
    | nil => rfl
    | cons x xs => simp [eqCIb] at h
  | cons c cs ih =>
    cases b with
    | nil => simp [eqCIb] at h
    | cons k ks =>
      simp only [eqCIb, Bool.and_eq_true] at h
      simp [ih h.2]

/-- A member of a list pairs up, under case-insensitive equality, with some
member of the other list. -/
theorem eqCIb_mem {a b : List Char} (h : eqCIb a b = true) {c : Char} (hc : c ∈ a) :
    ∃ d ∈ b, c.toLower = d.toLower := by
  induction a generalizing b with
  | nil => cases hc
  | cons x xs ih =>
    cases b with
    | nil => simp [eqCIb] at h
    | cons k ks =>
      simp only [eqCIb, Bool.and_eq_true, beq_iff_eq] at h
      rcases List.mem_cons.mp hc with hcx | hcxs
      · exact ⟨k, List.mem_cons_self _ _, hcx ▸ h.1⟩
      · obtain ⟨d, hd, hde⟩ := ih h.2 hcxs
        exact ⟨d, List.mem_cons_of_mem _ hd, hde⟩

/-- Characterization of a successful case-insensitive strip: the input splits
into a case-variant of the key followed by the remainder. -/
theorem stripPrefixCI_some {ks cs rem : List Char} (h : stripPrefixCI ks cs = some rem) :
    ∃ q, cs = q ++ rem ∧ eqCIb q ks = true := by
  induction ks generalizing cs with
  | nil =>
    refine ⟨[], ?_, rfl⟩
    simpa [stripPrefixCI] using h
  | cons k ks ih =>
    cases cs with
    | nil => simp [stripPrefixCI] at h
    | cons c cs =>
      by_cases hck : c.toLower == k.toLower
      · rw [stripPrefixCI, if_pos hck] at h
        obtain ⟨q, hq, hci⟩ := ih h
        exact ⟨c :: q, by simp [hq], by simp [eqCIb, hck, hci]⟩
      · rw [stripPrefixCI, if_neg hck] at h
        cases h

/-- A successful case-sensitive strip splits the input. -/
theorem stripLit_some {ks cs rem : List Char} (h : stripLit ks cs = some rem) :
    ∃ q, cs = q ++ rem := by
  induction ks generalizing cs with
  | nil =>
    refine ⟨[], ?_⟩
    simpa [stripLit] using h
  | cons k ks ih =>
    cases cs with
    | nil => simp [stripLit] at h
    | cons c cs =>
      by_cases hck : c == k
      · rw [stripLit, if_pos hck] at h
        obtain ⟨q, hq⟩ := ih h
        exact ⟨c :: q, by simp [hq]⟩
      · rw [stripLit, if_neg hck] at h
        cases h

/-- The whitespace split reassembles to the input. -/
theorem splitWs_append (cs : List Char) : cs = (splitWs cs).1 ++ (splitWs cs).2 := by
  induction cs with
  | nil => rfl
  | cons c cs ih =>
    by_cases hc : isPySpace c
    · simp only [splitWs, if_pos hc]
      simpa using ih
    · simp [splitWs, if_neg hc]

/-- The leading part of the whitespace split is all whitespace. -/
theorem splitWs_ws (cs : List Char) : ∀ c ∈ (splitWs cs).1, isPySpace c = true := by
  induction cs with
  | nil => simp [splitWs]
  | cons c cs ih =>
    by_cases hc : isPySpace c
    · simp only [splitWs, if_pos hc]
      intro d hd
      rcases List.mem_cons.mp hd with h | h
      · exact h ▸ hc
      · exact ih d h
    · simp [splitWs, if_neg hc]

/-- Characterization of a successful boolean-alternation match. -/
theorem matchBool_some {cs rem : List Char} {b : Bool} (h : matchBool cs = some (b, rem)) :
    ∃ f, cs = f ++ rem ∧ eqCIb f (if b then trueLit else falseLit) = true := by
  unfold matchBool at h
  cases ht : stripPrefixCI trueLit cs with
  | some r =>
    rw [ht] at h
    obtain ⟨rfl, rfl⟩ : b = true ∧ rem = r := by
      constructor <;> (cases h; rfl)
    obtain ⟨q, hq, hci⟩ := stripPrefixCI_some ht
    exact ⟨q, hq, by simpa using hci⟩
  | none =>
    rw [ht] at h
    cases hf : stripPrefixCI falseLit cs with
    | some r =>
      rw [hf] at h
      obtain ⟨rfl, rfl⟩ : b = false ∧ rem = r := by
        constructor <;> (cases h; rfl)
      obtain ⟨q, hq, hci⟩ := stripPrefixCI_some hf
      exact ⟨q, hq, by simpa using hci⟩
    | none => rw [hf] at h; cases h

/-- Characterization of a successful scalar-pattern match: the input is a
case-variant of the key, a whitespace run, a colon, a whitespace run and a
case-variant of the captured boolean literal, followed by the remainder. -/
theorem matchScalar_some {key cs rem : List Char} {b : Bool}
    (h : matchScalar key cs = some (b, rem)) :
    ∃ q w1 w2 f, cs = q ++ (w1 ++ (':' :: (w2 ++ (f ++ rem)))) ∧
      eqCIb q key = true ∧ (∀ c ∈ w1, isPySpace c = true) ∧
      (∀ c ∈ w2, isPySpace c = true) ∧
      eqCIb f (if b then trueLit else falseLit) = true := by
  cases hs : stripPrefixCI key cs with
  | none => rw [matchScalar, hs] at h; cases h
  | some cs1 =>
    obtain ⟨q, hq, hqci⟩ := stripPrefixCI_some hs
    cases h2 : (splitWs cs1).2 with
    | nil =>
      simp only [matchScalar, hs, h2] at h
      cases h
    | cons c cs3 =>
      simp only [matchScalar, hs, h2] at h
      by_cases hc : c = ':'
      · rw [if_pos hc] at h
        subst hc
        obtain ⟨f, hf, hfci⟩ := matchBool_some h
        have e1 : cs1 = (splitWs cs1).1 ++ (':' :: cs3) := by
          conv_lhs => rw [splitWs_append cs1]
          rw [h2]
        have e2 : cs3 = (splitWs cs3).1 ++ (f ++ rem) := by
          conv_lhs => rw [splitWs_append cs3]
          rw [hf]
        refine ⟨q, (splitWs cs1).1, (splitWs cs3).1, f, ?_, hqci, splitWs_ws cs1, splitWs_ws cs3, hfci⟩
        rw [hq]
        conv_lhs => rw [e1]
        conv_lhs => rw [e2]
      · rw [if_neg hc] at h; cases h

/-- A successful scalar match consumes at least one character. -/
theorem matchScalar_length {key cs rem : List Char} {b : Bool}
    (h : matchScalar key cs = some (b, rem)) : rem.length < cs.length := by
  obtain ⟨q, w1, w2, f, hcs, -, -, -, -⟩ := matchScalar_some h
  rw [hcs]
  simp
  omega

/-- Lookup left of an append boundary. -/
theorem nthc_app_left {A : List Char} (B : List Char) {i : Nat} (h : i < A.length) :
    nthc (A ++ B) i = nthc A i := by
  induction A generalizing i with
  | nil => cases h
  | cons a A ih =>
    cases i with
    | zero => rfl
    | succ i => exact ih (Nat.lt_of_succ_lt_succ h)

/-- Lookup right of an append boundary. -/
theorem nthc_app_right (A B : List Char) (i : Nat) :
    nthc (A ++ B) (A.length + i) = nthc B i := by
  induction A with
  | nil => simp
  | cons a A ih =>
    show nthc (a :: (A ++ B)) (A.length + 1 + i) = nthc B i
    have harith : A.length + 1 + i = (A.length + i) + 1 := by omega
    rw [harith]
    exact ih

/-- A successful lookup yields a member. -/
theorem nthc_mem {l : List Char} {i : Nat} {c : Char} (h : nthc l i = some c) : c ∈ l := by
  induction l generalizing i with
  | nil => cases h
  | cons a l ih =>
    cases i with
    | zero => cases h; exact List.mem_cons_self _ _
    | succ i => exact List.mem_cons_of_mem _ (ih h)

/-- In a list holding exactly one colon, a lookup returning the colon pins
down the position. -/
theorem unique_colon {A B : List Char} (hA : ∀ c ∈ A, c ≠ ':') (hB : ∀ c ∈ B, c ≠ ':')
    {i : Nat} (h : nthc (A ++ ':' :: B) i = some ':') : i = A.length := by
  induction A generalizing i with
  | nil =>
    cases i with
    | zero => rfl
    | succ i => exact absurd rfl (hB ':' (nthc_mem h))
  | cons a A ih =>
    cases i with
    | zero =>
      exfalso
      apply hA a (List.mem_cons_self _ _)
      cases h
      rfl
    | succ i =>
      have := ih (fun c hc => hA c (List.mem_cons_of_mem _ hc)) h
      simp [this]

/-- The last element of an append with nonempty right part. -/
theorem lastc_app (A : List Char) {B : List Char} (hB : B ≠ []) :
    lastc (A ++ B) = lastc B := by
  induction A with
  | nil => rfl
  | cons a A ih =>
    cases hAB : A ++ B with
    | nil =>
      exact absurd (List.append_eq_nil.mp hAB).2 hB
    | cons c l =>
      show lastc (a :: (A ++ B)) = lastc B
      rw [hAB]
      show lastc (c :: l) = lastc B
      rw [← hAB, ih]

/-- Heads of case-insensitively equal cons cells agree after lower-casing. -/
theorem eqCIb_head {c k : Char} {l ks : List Char} (h : eqCIb (c :: l) (k :: ks) = true) :
    c.toLower = k.toLower := by
  simp only [eqCIb, Bool.and_eq_true, beq_iff_eq] at h
  exact h.1

/-- Last elements of case-insensitively equal lists agree after lower-casing. -/
theorem eqCIb_lastc {a b : List Char} (h : eqCIb a b = true) :
    (lastc a).map Char.toLower = (lastc b).map Char.toLower := by
  induction a generalizing b with
  | nil =>
    cases b with
    | nil => rfl
    | cons k ks => simp [eqCIb] at h
  | cons c cs ih =>
    cases b with
    | nil => simp [eqCIb] at h
    | cons k ks =>
      simp only [eqCIb, Bool.and_eq_true, beq_iff_eq] at h
      cases cs with
      | nil =>
        cases ks with
        | nil => simp [lastc, h.1]
        | cons k2 ks2 => simp [eqCIb] at h
      | cons c2 cs2 =>
        cases ks with
        | nil => simp [eqCIb] at h
        | cons k2 ks2 =>
          show (lastc (c2 :: cs2)).map Char.toLower = (lastc (k2 :: ks2)).map Char.toLower
          exact ih h.2

/-- No colon occurs in a case-variant of `"available"` followed by whitespace. -/
theorem no_colon_left {q w1 : List Char} (hq : eqCIb q availKey = true)
    (hw1 : ∀ c ∈ w1, isPySpace c = true) : ∀ c ∈ q ++ w1, c ≠ ':' := by
  intro c hc hrfl
  subst hrfl
  rcases List.mem_append.mp hc with h | h
  · obtain ⟨d, hd, he⟩ := eqCIb_mem hq h
    have hno : ∀ d ∈ availKey, Char.toLower ':' ≠ d.toLower := by decide
    exact hno d hd he
  · exact absurd (hw1 ':' h) (by decide)

/-- No colon occurs in whitespace followed by a case-variant of `false`. -/
theorem no_colon_right {w2 f : List Char} (hw2 : ∀ c ∈ w2, isPySpace c = true)
    (hf : eqCIb f falseLit = true) : ∀ c ∈ w2 ++ f, c ≠ ':' := by
  intro c hc hrfl
  subst hrfl
  rcases List.mem_append.mp hc with h | h
  · exact absurd (hw2 ':' h) (by decide)
  · obtain ⟨d, hd, he⟩ := eqCIb_mem hf h
    have hno : ∀ d ∈ falseLit, Char.toLower ':' ≠ d.toLower := by decide
    exact hno d hd he

/-- The text matched by a false-capturing scalar match cannot contain the
literal `"available":true`: its lone colon is followed by whitespace or a
case-variant of `f`, never by `t`. -/
theorem no_lit_inside_false_match {q w1 w2 f u v : List Char}
    (hq : eqCIb q availKey = true)
    (hw1 : ∀ c ∈ w1, isPySpace c = true)
    (hw2 : ∀ c ∈ w2, isPySpace c = true)
    (hf : eqCIb f falseLit = true)
    (hE : q ++ (w1 ++ (':' :: (w2 ++ f))) = u ++ (litAvailTrue ++ v)) : False := by
  have hqlen : q.length = 11 := by simpa [availKey] using eqCIb_length hq
  have hcolon : nthc (u ++ (litAvailTrue ++ v)) (u.length + 11) = some ':' := by
    rw [nthc_app_right, nthc_app_left v (by decide)]
    decide
  have hM : q ++ (w1 ++ (':' :: (w2 ++ f))) = (q ++ w1) ++ (':' :: (w2 ++ f)) := by
    simp [List.append_assoc]
  have hcolon2 : nthc ((q ++ w1) ++ (':' :: (w2 ++ f))) (u.length + 11) = some ':' := by
    rw [← hM, hE]
    exact hcolon
  have hpos := unique_colon (no_colon_left hq hw1) (no_colon_right hw2 hf) hcolon2
  have hw1len : u.length = w1.length := by
    simp only [List.length_append, hqlen] at hpos
    omega
  have ht : nthc (u ++ (litAvailTrue ++ v)) (u.length + 12) = some 't' := by
    rw [nthc_app_right, nthc_app_left v (by decide)]
    decide
  have hM2 : q ++ (w1 ++ (':' :: (w2 ++ f))) = ((q ++ w1) ++ [':']) ++ (w2 ++ f) := by
    simp [List.append_assoc]
  have hlen2 : ((q ++ w1) ++ [':']).length = u.length + 12 := by
    simp only [List.length_append, List.length_cons, List.length_nil, hqlen, hw1len]
    omega
  have ht2 : nthc (w2 ++ f) 0 = some 't' := by
    have hr := nthc_app_right ((q ++ w1) ++ [':']) (w2 ++ f) 0
    rw [hlen2] at hr
    rw [← hr]
    show nthc (((q ++ w1) ++ [':']) ++ (w2 ++ f)) (u.length + 12) = some 't'
    rw [← hM2, hE]
    exact ht
  have hmem : 't' ∈ w2 ++ f := nthc_mem ht2
  rcases List.mem_append.mp hmem with h | h
  · exact absurd (hw2 't' h) (by decide)
  · obtain ⟨d, hd, he⟩ := eqCIb_mem hf h
    have hno : ∀ d ∈ falseLit, Char.toLower 't' ≠ d.toLower := by decide
    exact hno d hd he

/-- The text matched by a false-capturing scalar match cannot end strictly
inside an occurrence of the literal `"available":true`. -/
theorem no_tail_straddle {q w1 w2 f pre a' : List Char}
    (hq : eqCIb q availKey = true)
    (hw1 : ∀ c ∈ w1, isPySpace c = true)
    (hw2 : ∀ c ∈ w2, isPySpace c = true)
    (hf : eqCIb f falseLit = true)
    (hE : q ++ (w1 ++ (':' :: (w2 ++ f))) = pre ++ a')
    (ha : a' ≠ [])
    (hz : ∃ z, z ≠ [] ∧ litAvailTrue = a' ++ z) : False := by
  obtain ⟨z, hzne, hlt⟩ := hz
  have hqlen : q.length = 11 := by simpa [availKey] using eqCIb_length hq
  have hflen : f.length = 5 := by simpa [falseLit] using eqCIb_length hf
  have halen : (16 : Nat) = a'.length + z.length := by
    have h0 := congrArg List.length hlt
    simpa [litAvailTrue] using h0
  have hage : 1 ≤ a'.length := by
    cases a' with
    | nil => exact absurd rfl ha
    | cons _ _ => simp
  have hale : a'.length ≤ 15 := by
    have : z.length ≠ 0 := by
      cases z with
      | nil => exact absurd rfl hzne
      | cons _ _ => simp
    omega
  by_cases hm : 12 ≤ a'.length
  · have hcolA : nthc a' 11 = some ':' := by
      have h1 : nthc (a' ++ z) 11 = some ':' := by
        rw [← hlt]
        decide
      rwa [nthc_app_left z (by omega)] at h1
    have hcol : nthc (pre ++ a') (pre.length + 11) = some ':' := by
      rw [nthc_app_right]
      exact hcolA
    have hMa : q ++ (w1 ++ (':' :: (w2 ++ f))) = (q ++ w1) ++ (':' :: (w2 ++ f)) := by
      simp [List.append_assoc]
    have hcol2 : nthc ((q ++ w1) ++ (':' :: (w2 ++ f))) (pre.length + 11) = some ':' := by
      rw [← hMa, hE]
      exact hcol
    have hpos := unique_colon (no_colon_left hq hw1) (no_colon_right hw2 hf) hcol2
    have hMlen := congrArg List.length hE
    simp only [List.length_append, List.length_cons] at hMlen hpos
    omega
  · push_neg at hm
    have hfne : f ≠ [] := by
      intro h0
      rw [h0] at hflen
      simp at hflen
    have hlastM : lastc (q ++ (w1 ++ (':' :: (w2 ++ f)))) = lastc f := by
      have h5 : w2 ++ f ≠ [] := fun h0 => hfne (List.append_eq_nil.mp h0).2
      have h4 : (':' :: (w2 ++ f)) ≠ [] := by simp
      have h3 : w1 ++ (':' :: (w2 ++ f)) ≠ [] := by simp
      rw [lastc_app q h3, lastc_app w1 h4]
      show lastc ([':'] ++ (w2 ++ f)) = lastc f
      rw [lastc_app [':'] h5, lastc_app w2 hfne]
    have hle : (lastc a').map Char.toLower = some 'e' := by
      have hfa : lastc a' = lastc f := by
        rw [← lastc_app pre ha, ← hE, hlastM]
      rw [hfa]
      calc (lastc f).map Char.toLower
          = (lastc falseLit).map Char.toLower := eqCIb_lastc hf
        _ = some 'e' := by decide
    have hta : a' = litAvailTrue.take a'.length := by
      rw [hlt]
      exact (List.take_left a' z).symm
    have hkey : ∀ i : Fin 12, 1 ≤ i.val →
        (lastc (litAvailTrue.take i.val)).map Char.toLower = some 'e' → i.val = 10 := by
      decide
    have h10 : a'.length = 10 :=
      hkey ⟨a'.length, by omega⟩ hage (by rw [← hta]; exact hle)
    have ha10 : a' = ['"', 'a', 'v', 'a', 'i', 'l', 'a', 'b', 'l', 'e'] := by
      rw [hta, h10]
      decide
    have hM2 : q ++ (w1 ++ (':' :: (w2 ++ f))) = (q ++ (w1 ++ (':' :: w2))) ++ f := by
      simp [List.append_assoc]
    rw [hM2] at hE
    rcases List.append_eq_append_iff.mp hE with ⟨s, hs1, hs2⟩ | ⟨s, hs1, hs2⟩
    · have h0 := congrArg List.length hs2
      simp only [List.length_append] at h0
      omega
    · cases f with
      | nil => exact absurd rfl hfne
      | cons f0 ft =>
        have hf0 : f0 ∈ a' := by
          rw [hs2]
          exact List.mem_append_right _ (List.mem_cons_self _ _)
        rw [ha10] at hf0
        have hf0l : f0.toLower = Char.toLower 'f' :=
          eqCIb_head (show eqCIb (f0 :: ft) ('f' :: ['a', 'l', 's', 'e']) = true from hf)
        have hno : ∀ c ∈ ['"', 'a', 'v', 'a', 'i', 'l', 'a', 'b', 'l', 'e'],
            c.toLower ≠ Char.toLower 'f' := by decide
        exact hno f0 hf0 hf0l

/-- A false-capturing scalar match leaves every occurrence of the literal
`"available":true` intact in the remainder: such a match can neither contain
nor straddle the literal. -/
theorem false_match_keeps_lit {cs rem pre post : List Char}
    (hm : matchScalar availKey cs = some (false, rem))
    (hE : cs = pre ++ (litAvailTrue ++ post)) :
    ∃ pre2, rem = pre2 ++ (litAvailTrue ++ post) := by
  obtain ⟨q, w1, w2, f, hcs, hq, hw1, hw2, hf⟩ := matchScalar_some hm
  have hfci : eqCIb f falseLit = true := by simpa using hf
  have hMM : pre ++ (litAvailTrue ++ post) = (q ++ (w1 ++ (':' :: (w2 ++ f)))) ++ rem := by
    rw [← hE, hcs]
    simp [List.append_assoc]
  rcases List.append_eq_append_iff.mp hMM with ⟨s, hs1, hs2⟩ | ⟨s, hs1, hs2⟩
  · rcases List.append_eq_append_iff.mp hs2 with ⟨z, hz1, hz2⟩ | ⟨z, hz1, hz2⟩
    · exact absurd (by rw [hs1, hz1]) (fun h => no_lit_inside_false_match hq hw1 hw2 hfci h)
    · by_cases hsnil : s = []
      · subst hsnil
        simp only [List.nil_append] at hz1
        exact ⟨[], by rw [hz2, ← hz1]; simp⟩
      · by_cases hznil : z = []
        · subst hznil
          simp only [List.append_nil] at hz1
          have hcontra : q ++ (w1 ++ (':' :: (w2 ++ f))) = pre ++ (litAvailTrue ++ []) := by
            rw [hs1, hz1]
            simp
          exact absurd hcontra (fun h => no_lit_inside_false_match hq hw1 hw2 hfci h)
        · exact absurd hs1 (fun h => no_tail_straddle hq hw1 hw2 hfci h hsnil ⟨z, hznil, hz1⟩)
  · exact ⟨s, hs2⟩

/-- The scalar pattern matches at the literal `"available":true`. -/
theorem matchScalar_litTrue (post : List Char) :
    matchScalar availKey (litAvailTrue ++ post) = some (true, post) := rfl

/-- The scalar pattern matches at the literal `"available": true`. -/
theorem matchScalar_litSpTrue (post : List Char) :
    matchScalar availKey (litAvailSpTrue ++ post) = some (true, post) := rfl

/-- The scalar pattern matches at the literal `"available":false`. -/
theorem matchScalar_litFalse (post : List Char) :
    matchScalar availKey (litAvailFalse ++ post) = some (false, post) := rfl

/-- The scalar pattern matches at the literal `"available": false`. -/
theorem matchScalar_litSpFalse (post : List Char) :
    matchScalar availKey (litAvailSpFalse ++ post) = some (false, post) := rfl

/-- The non-overlapping findall scan over a text containing the literal
`"available":true` collects at least one `true` capture: matches before the
literal either skip it (their remainder still contains it) or capture `true`
themselves. -/
theorem scan_contains_true : ∀ (fuel : Nat) (cs pre post : List Char),
    cs.length ≤ fuel → cs = pre ++ (litAvailTrue ++ post) →
    true ∈ scanScalarAux availKey fuel cs := by
  intro fuel
  induction fuel with
  | zero =>
    intro cs pre post hlen hE
    exfalso
    have h0 := congrArg List.length hE
    simp [litAvailTrue] at h0
    omega
  | succ fuel ih =>
    intro cs pre post hlen hE
    cases cs with
    | nil =>
      exfalso
      have h0 := congrArg List.length hE
      simp [litAvailTrue] at h0
      omega
    | cons c cs' =>
      cases hm : matchScalar availKey (c :: cs') with
      | some br =>
        obtain ⟨b, rem⟩ := br
        cases b with
        | true => simp [scanScalarAux, hm]
        | false =>
          obtain ⟨pre2, hrem⟩ := false_match_keeps_lit hm hE
          have hcl : cs'.length + 1 ≤ fuel + 1 := by simpa using hlen
          have hrl : rem.length < cs'.length + 1 := by simpa using matchScalar_length hm
          simp only [scanScalarAux, hm]
          exact List.mem_cons_of_mem _ (ih rem pre2 post (by omega) hrem)
      | none =>
        cases pre with
        | nil =>
          exfalso
          simp only [List.nil_append] at hE
          rw [hE, matchScalar_litTrue] at hm
          cases hm
        | cons p pre' =>
          simp only [List.cons_append] at hE
          injection hE with h1 h2
          have hcl : cs'.length + 1 ≤ fuel + 1 := by simpa using hlen
          simp only [scanScalarAux, hm]
          exact ih cs' pre' post (by omega) h2

/-- The findall scan over a text containing a fragment at which the scalar
pattern matches is nonempty. -/
theorem scan_ne_nil : ∀ (fuel : Nat) (cs pre post mid : List Char),
    (∀ rest, (matchScalar availKey (mid ++ rest)).isSome = true) →
    cs.length ≤ fuel → cs = pre ++ (mid ++ post) →
    scanScalarAux availKey fuel cs ≠ [] := by
  intro fuel
  induction fuel with
  | zero =>
    intro cs pre post mid hmid hlen hE
    exfalso
    have hcs : cs = [] := List.length_eq_zero.mp (Nat.le_zero.mp hlen)
    subst hcs
    obtain ⟨hpre, hmp⟩ := List.append_eq_nil.mp hE.symm
    have hmnil : mid = [] := (List.append_eq_nil.mp hmp).1
    have hx := hmid []
    rw [hmnil] at hx
    exact absurd hx (by decide)
  | succ fuel ih =>
    intro cs pre post mid hmid hlen hE
    cases cs with
    | nil =>
      exfalso
      obtain ⟨hpre, hmp⟩ := List.append_eq_nil.mp hE.symm
      have hmnil : mid = [] := (List.append_eq_nil.mp hmp).1
      have hx := hmid []
      rw [hmnil] at hx
      exact absurd hx (by decide)
    | cons c cs' =>
      cases hm : matchScalar availKey (c :: cs') with
      | some br =>
        obtain ⟨b, rem⟩ := br
        simp [scanScalarAux, hm]
      | none =>
        cases pre with
        | nil =>
          exfalso
          simp only [List.nil_append] at hE
          have hx := hmid post
          rw [← hE, hm] at hx
          exact absurd hx (by decide)
        | cons p pre' =>
          simp only [List.cons_append] at hE
          injection hE with h1 h2
          have hcl : cs'.length + 1 ≤ fuel + 1 := by simpa using hlen
          simp only [scanScalarAux, hm]
          exact ih cs' pre' post mid hmid (by omega) h2

/-- A successful Boolean prefix test decomposes the haystack. -/
theorem leadsWith_decomp {n : List Char} : ∀ {hay : List Char},
    leadsWith n hay = true → ∃ v, hay = n ++ v := by
  induction n with
  | nil => exact fun {hay} _ => ⟨hay, rfl⟩
  | cons x xs ih =>
    intro hay hl
    cases hay with
    | nil => simp [leadsWith] at hl
    | cons c cs =>
      simp only [leadsWith, Bool.and_eq_true, beq_iff_eq] at hl
      obtain ⟨v, hv⟩ := ih hl.2
      exact ⟨v, by simp [← hl.1, hv]⟩

/-- A successful substring test decomposes the haystack. -/
theorem hasSubstr_decomp {n : List Char} : ∀ (hay : List Char),
    hasSubstr n hay = true → ∃ u v, hay = u ++ (n ++ v) := by
  intro hay
  induction hay with
  | nil =>
    intro h
    have hn : n = [] := by
      cases n with
      | nil => rfl
      | cons _ _ => simp [hasSubstr, List.isEmpty] at h
    exact ⟨[], [], by simp [hn]⟩
  | cons c cs ih =>
    intro h
    simp only [hasSubstr, Bool.or_eq_true] at h
    rcases h with hl | hr
    · obtain ⟨v, hv⟩ := leadsWith_decomp hl
      exact ⟨[], v, by simp [hv]⟩
    · obtain ⟨u, v, huv⟩ := ih hr
      exact ⟨c :: u, v, by simp [huv]⟩

/-- A successful bracket-bounded capture decomposes its input. -/
theorem takeUntilRB_decomp : ∀ (rest content : List Char),
    takeUntilRB rest = some content → ∃ v, rest = content ++ (']' :: v) := by
  intro rest
  induction rest with
  | nil => intro content h; cases h
  | cons c cs ih =>
    intro content h
    by_cases hc : c = ']'
    · rw [takeUntilRB, if_pos hc] at h
      injection h with h'
      subst h'
      exact ⟨cs, by simp [hc]⟩
    · rw [takeUntilRB, if_neg hc] at h
      cases ht : takeUntilRB cs with
      | none => rw [ht] at h; cases h
      | some content' =>
        rw [ht] at h
        injection h with h'
        obtain ⟨v, hv⟩ := ih content' ht
        exact ⟨v, by simp [← h', hv]⟩

/-- A successful variant-head match consumes a prefix of the input. -/
theorem matchVariantHead_decomp {cs rest : List Char} (h : matchVariantHead cs = some rest) :
    ∃ u, cs = u ++ rest := by
  cases hs : stripLit variantsKey cs with
  | none => rw [matchVariantHead, hs] at h; cases h
  | some cs1 =>
    obtain ⟨q, hq⟩ := stripLit_some hs
    cases h2 : (splitWs cs1).2 with
    | nil =>
      simp only [matchVariantHead, hs, h2] at h
      cases h
    | cons c cs3 =>
      simp only [matchVariantHead, hs, h2] at h
      by_cases hc : c = ':'
      · rw [if_pos hc] at h
        cases h4 : (splitWs cs3).2 with
        | nil =>
          simp only [h4] at h
          cases h
        | cons d cs5 =>
          simp only [h4] at h
          by_cases hd : d = '['
          · rw [if_pos hd] at h
            injection h with h'
            subst h'
            refine ⟨q ++ ((splitWs cs1).1 ++ (c :: ((splitWs cs3).1 ++ [d]))), ?_⟩
            rw [hq]
            conv_lhs => rw [splitWs_append cs1]
            conv_lhs => rw [h2]
            conv_lhs => rw [splitWs_append cs3]
            conv_lhs => rw [h4]
            simp [List.append_assoc]
          · rw [if_neg hd] at h; cases h
      · rw [if_neg hc] at h; cases h

/-- The variant-array capture is an infix of the scanned text. -/
theorem variantSearch_infix : ∀ (cs content : List Char),
    variantSearch cs = some content → ∃ u v, cs = u ++ (content ++ v) := by
  intro cs
  induction cs with
  | nil => intro content h; cases h
  | cons c cs' ih =>
    intro content h
    cases hm : matchVariantHead (c :: cs') with
    | some rest =>
      cases ht : takeUntilRB rest with
      | some content' =>
        have hcc : content' = content := by
          have h0 := h
          simp only [variantSearch, hm, ht] at h0
          exact Option.some.inj h0
        obtain ⟨u, hu⟩ := matchVariantHead_decomp hm
        obtain ⟨v, hv⟩ := takeUntilRB_decomp rest content' ht
        refine ⟨u, ']' :: v, ?_⟩
        rw [hu, hv, hcc]
      | none =>
        simp only [variantSearch, hm, ht] at h
        obtain ⟨u, v, huv⟩ := ih content h
        exact ⟨c :: u, v, by simp [huv]⟩
    | none =>
      simp only [variantSearch, hm] at h
      obtain ⟨u, v, huv⟩ := ih content h
      exact ⟨c :: u, v, by simp [huv]⟩

/-- A `true` capture among the pattern-1 matches makes tier 1 report the
product available. -/
theorem check_of_true_mem_avail {html : String}
    (h : true ∈ findallScalar availKey html.data) :
    check_shopify_json_availability html = (true, true) := by
  cases hfa : findallScalar availKey html.data with
  | nil => rw [hfa] at h; cases h
  | cons b bs =>
    rw [hfa] at h
    have hco : (b :: bs).contains true = true := by
      show List.elem true (b :: bs) = true
      exact List.elem_iff.mpr h
    simp only [check_shopify_json_availability, hfa, hco]

/-- A document containing the literal `"available":true` makes tier 1 report
the product available. -/
theorem check_true_of_lit {html : String} {pre post : List Char}
    (h : html.data = pre ++ (litAvailTrue ++ post)) :
    check_shopify_json_availability html = (true, true) :=
  check_of_true_mem_avail (scan_contains_true html.data.length html.data pre post le_rfl h)

/-- C1 counterexample: a document holding a false `available` flag and a true
`availableForSale` flag is classified `(true, false)`, not `(true, true)`,
although an occurrence of the scalar flag pattern with literal `true` exists. -/
theorem claim_C1_cex :
    check_shopify_json_availability "\"available\":false,\"availableForSale\":true"
      = (true, false) ∧
    true ∈ findallScalar afsKey "\"available\":false,\"availableForSale\":true".data := by
  exact ⟨by decide, by decide⟩

/-- C1 (amended): if some `available`-pattern occurrence captures `true`, or
no `available`-pattern occurrence exists at all and some
`availableForSale`-pattern occurrence captures `true`, then tier 1 fires and
classifies the product available, `(true, true)`.  (As stated the claim is
false: the patterns are tried in order, so a false `available` occurrence
masks a true `availableForSale` occurrence — see the counterexample.) -/
theorem claim_C1_amended (html : String)
    (h : true ∈ findallScalar availKey html.data ∨
      (findallScalar availKey html.data = [] ∧ true ∈ findallScalar afsKey html.data)) :
    check_shopify_json_availability html = (true, true) := by
  rcases h with h | ⟨hnil, h⟩
  · exact check_of_true_mem_avail h
  · cases hfs : findallScalar afsKey html.data with
    | nil => rw [hfs] at h; cases h
    | cons b bs =>
      rw [hfs] at h
      have hco : (b :: bs).contains true = true := by
        show List.elem true (b :: bs) = true
        exact List.elem_iff.mpr h
      simp only [check_shopify_json_availability, hnil, hfs, hco]

/-- C1 witness: a lone case-variant `availableForSale` flag set to `TRUE`
classifies available. -/
theorem claim_C1_witness :
    check_shopify_json_availability "\"availableForSale\": TRUE" = (true, true) :=
  claim_C1_amended _ (Or.inr ⟨by decide, by decide⟩)

/-- C3: any content whose decoded text contains the literal
`"available":true` anywhere is classified in stock by `is_in_stock`,
regardless of the keyword list and of any other occurrences (in particular
`"available":false` ones) elsewhere in the document. -/
theorem claim_C3 (c : Content) (kws : Option (List String)) (pre post : List Char)
    (h : c.htmlStr.data = pre ++ (litAvailTrue ++ post)) :
    is_in_stock c kws = true := by
  have hc := check_true_of_lit h
  simp [is_in_stock, hc]

/-- C3 witness: a document with a false flag before and after the true flag is
still classified in stock. -/
theorem claim_C3_witness :
    is_in_stock ⟨"\"available\":false,\"available\":true,\"available\":false", ⟨"", []⟩⟩
      none = true :=
  claim_C3 _ none "\"available\":false,".data ",\"available\":false".data (by decide)

/-- C9: the variant-array fallback of `check_shopify_json_availability` is
dead code — each literal it tests also matches the scalar `available`
pattern, so the function is extensionally the simplified
`check_shopify_scalar_only` that answers `(false, false)` whenever the scalar
patterns have no match. -/
theorem claim_C9 (html : String) :
    check_shopify_json_availability html = check_shopify_scalar_only html := by
  cases hfa : findallScalar availKey html.data with
  | cons b bs => simp only [check_shopify_json_availability, check_shopify_scalar_only, hfa]
  | nil =>
    cases hfs : findallScalar afsKey html.data with
    | cons b bs =>
      simp only [check_shopify_json_availability, check_shopify_scalar_only, hfa, hfs]
    | nil =>
      simp only [check_shopify_json_availability, check_shopify_scalar_only, hfa, hfs]
      cases hv : variantSearch html.data with
      | none => simp only [hv]
      | some content =>
        obtain ⟨u, v, huv⟩ := variantSearch_infix html.data content hv
        have hnot : ∀ mid : List Char,
            (∀ rest, (matchScalar availKey (mid ++ rest)).isSome = true) →
            hasSubstr mid content = false := by
          intro mid hmid
          cases hs : hasSubstr mid content with
          | false => rfl
          | true =>
            exfalso
            obtain ⟨u2, v2, huv2⟩ := hasSubstr_decomp content hs
            refine scan_ne_nil html.data.length html.data (u ++ u2) (v2 ++ v) mid hmid
              le_rfl ?_ hfa
            rw [huv, huv2]
            simp [List.append_assoc]
        have h1 := hnot litAvailTrue (fun rest => by rw [matchScalar_litTrue]; rfl)
        have h2 := hnot litAvailSpTrue (fun rest => by rw [matchScalar_litSpTrue]; rfl)
        have h3 := hnot litAvailFalse (fun rest => by rw [matchScalar_litFalse]; rfl)
        have h4 := hnot litAvailSpFalse (fun rest => by rw [matchScalar_litSpFalse]; rfl)
        simp [hv, h1, h2, h3, h4]

/-- C2 counterexample: the first matching control carries a `disabled`
attribute — present but with the empty value that the bs4 html.parser stores
for a valueless attribute — no `disabled` class, no structured data and no
keyword hit, yet `is_in_stock` returns `true`: the source tests Python
truthiness of the attribute value, and `''` is falsy. -/
theorem claim_C2_cex :
    (Soup.mk "Buy Now" [Tag.mk "button" "Buy Now" (some "") []]).tags.find? isCartControl
      = some (Tag.mk "button" "Buy Now" (some "") []) ∧
    (Tag.mk "button" "Buy Now" (some "") []).disabled = some "" ∧
    (check_shopify_json_availability "plain").1 = false ∧
    keywordHit DEFAULT_OUT_OF_STOCK_KEYWORDS "Buy Now" = false ∧
    is_in_stock (Content.mk "plain" (Soup.mk "Buy Now" [Tag.mk "button" "Buy Now" (some "") []]))
      none = true :=
  ⟨by decide, by decide, by decide, by decide, by decide⟩

/-- C2 (amended): with no structured-data match and no keyword hit, if the
first matching cart control carries a disabled attribute with a non-empty
(Python-truthy) value, or a CSS class literally named `disabled`, then
`is_in_stock` returns false.  (As stated the claim is false: a valueless or
empty-valued `disabled` attribute is falsy in Python and does not disable the
control — see the counterexample.) -/
theorem claim_C2_amended (c : Content) (kws : Option (List String)) (t : Tag)
    (hns : (check_shopify_json_availability c.htmlStr).1 = false)
    (hkw : keywordHit (kws.getD DEFAULT_OUT_OF_STOCK_KEYWORDS) c.soup.fullText = false)
    (hfind : c.soup.tags.find? isCartControl = some t)
    (hdis : pyTruthyStr t.disabled = true ∨ t.classes.contains "disabled" = true) :
    is_in_stock c kws = false := by
  cases hc : check_shopify_json_availability c.htmlStr with
  | mk fst snd =>
    have hf : fst = false := by rw [hc] at hns; exact hns
    subst hf
    have hdc : tagDisabledCheck t = true := by
      unfold tagDisabledCheck
      rcases hdis with h | h
      · simp [h]
      · rw [h]
        simp
    simp [is_in_stock, hc, hkw, hfind, hdc]

/-- C2 witness: a disabled `Buy Now` button (attribute value `disabled`, as a
browser serializes it) classifies not in stock. -/
theorem claim_C2_witness :
    is_in_stock
      (Content.mk "plain" (Soup.mk "Buy Now" [Tag.mk "button" "Buy Now" (some "disabled") []]))
      none = false :=
  claim_C2_amended _ none (Tag.mk "button" "Buy Now" (some "disabled") [])
    (by decide) (by decide) (by decide) (Or.inl (by decide))

/-- C4: with no structured-data match, any configured out-of-stock keyword
occurring case-insensitively in the visible text forces `is_in_stock` to
return false, whatever interactive controls the page holds. -/
theorem claim_C4 (c : Content) (kws : Option (List String)) (kw : String)
    (hmem : kw ∈ kws.getD DEFAULT_OUT_OF_STOCK_KEYWORDS)
    (hsub : hasSubstr (lowerL kw.data) (lowerL c.soup.fullText.data) = true)
    (hns : (check_shopify_json_availability c.htmlStr).1 = false) :
    is_in_stock c kws = false := by
  have hkh : keywordHit (kws.getD DEFAULT_OUT_OF_STOCK_KEYWORDS) c.soup.fullText = true := by
    unfold keywordHit
    exact List.any_eq_true.mpr ⟨kw, hmem, hsub⟩
  cases hc : check_shopify_json_availability c.htmlStr with
  | mk fst snd =>
    have hf : fst = false := by rw [hc] at hns; exact hns
    subst hf
    simp [is_in_stock, hc, hkh]

/-- C4 witness: `Sold Out` in the visible text wins over an enabled
`Add to Cart` button. -/
theorem claim_C4_witness :
    is_in_stock
      (Content.mk "plain text"
        (Soup.mk "Currently SOLD OUT" [Tag.mk "button" "Add to Cart" none []]))
      none = false :=
  claim_C4 _ none "Sold Out" (by decide) (by decide) (by decide)

/-- C5: with no structured-data match and no keyword hit, a first matching
cart control carrying neither a disabled attribute nor a `disabled` class
makes `is_in_stock` return true. -/
theorem claim_C5 (c : Content) (kws : Option (List String)) (t : Tag)
    (hns : (check_shopify_json_availability c.htmlStr).1 = false)
    (hkw : keywordHit (kws.getD DEFAULT_OUT_OF_STOCK_KEYWORDS) c.soup.fullText = false)
    (hfind : c.soup.tags.find? isCartControl = some t)
    (hnd : t.disabled = none)
    (hnc : "disabled" ∉ t.classes) :
    is_in_stock c kws = true := by
  cases hc : check_shopify_json_availability c.htmlStr with
  | mk fst snd =>
    have hf : fst = false := by rw [hc] at hns; exact hns
    subst hf
    have hcc : t.classes.contains "disabled" = false := by
      cases hcontains : t.classes.contains "disabled" with
      | false => rfl
      | true =>
        exact absurd
          (List.elem_iff.mp (show List.elem "disabled" t.classes = true from hcontains)) hnc
    have hdc : tagDisabledCheck t = false := by
      simp [tagDisabledCheck, pyTruthyStr, hnd, hcc, hnc]
    simp [is_in_stock, hc, hkw, hfind, hdc]

/-- C5 witness: an enabled upper-case `BUY NOW` link classifies in stock. -/
theorem claim_C5_witness :
    is_in_stock
      (Content.mk "page" (Soup.mk "welcome" [Tag.mk "a" "BUY NOW" none ["btn"]]))
      none = true :=
  claim_C5 _ none (Tag.mk "a" "BUY NOW" none ["btn"])
    (by decide) (by decide) (by decide) rfl (by decide)

/-- C6: with no structured-data match, no keyword hit and no matching cart
control anywhere, `is_in_stock` returns false (conservative default). -/
theorem claim_C6 (c : Content) (kws : Option (List String))
    (hns : (check_shopify_json_availability c.htmlStr).1 = false)
    (hkw : keywordHit (kws.getD DEFAULT_OUT_OF_STOCK_KEYWORDS) c.soup.fullText = false)
    (hfind : c.soup.tags.find? isCartControl = none) :
    is_in_stock c kws = false := by
  cases hc : check_shopify_json_availability c.htmlStr with
  | mk fst snd =>
    have hf : fst = false := by rw [hc] at hns; exact hns
    subst hf
    simp [is_in_stock, hc, hkw, hfind]

/-- C6 witness: a page whose only element is a `div` (not an actionable
control) classifies not in stock. -/
theorem claim_C6_witness :
    is_in_stock
      (Content.mk "page" (Soup.mk "welcome" [Tag.mk "div" "Add to Cart" none []]))
      none = false :=
  claim_C6 _ none (by decide) (by decide) (by decide)

/-- C10: an empty string among the supplied keywords makes the keyword tier
fire on every page (the empty string is a substring of every text), so
whenever tier 1 does not fire `is_in_stock` returns false — an enabled cart
control notwithstanding. -/
theorem claim_C10 (c : Content) (kws : List String)
    (hmem : "" ∈ kws)
    (hns : (check_shopify_json_availability c.htmlStr).1 = false) :
    is_in_stock c (some kws) = false := by
  have hkh : keywordHit kws c.soup.fullText = true := by
    unfold keywordHit
    apply List.any_eq_true.mpr
    refine ⟨"", hmem, ?_⟩
    show hasSubstr [] (lowerL c.soup.fullText.data) = true
    cases h : lowerL c.soup.fullText.data with
    | nil => rfl
    | cons d l => simp [hasSubstr, leadsWith]
  cases hc : check_shopify_json_availability c.htmlStr with
  | mk fst snd =>
    have hf : fst = false := by rw [hc] at hns; exact hns
    subst hf
    simp [is_in_stock, hc]
    simp [hkh]

/-- C10 witness: the empty keyword forces not-in-stock despite an enabled
`Add to Cart` button. -/
theorem claim_C10_witness :
    is_in_stock
      (Content.mk "anything" (Soup.mk "Great product" [Tag.mk "button" "Add to Cart" none []]))
      (some [""]) = false :=
  claim_C10 _ [""] (by decide) (by decide)

/-- C7: the daily digest consults only `check_shopify_json_availability`;
whenever that tier does not detect structured data the digest status is
`Unknown`, and the keyword/control tiers are never applied — even on content
that `is_in_stock` would classify available through them (second conjunct). -/
theorem claim_C7 :
    (∀ html : String, (check_shopify_json_availability html).1 = false →
      digestStatus (Except.ok html) = DigestStatus.unknown) ∧
    (∃ c : Content, (check_shopify_json_availability c.htmlStr).1 = false ∧
      digestStatus (Except.ok c.htmlStr) = DigestStatus.unknown ∧
      is_in_stock c none = true) := by
  constructor
  · intro html hns
    cases hc : check_shopify_json_availability html with
    | mk fst snd =>
      have hf : fst = false := by rw [hc] at hns; exact hns
      subst hf
      simp [digestStatus, hc]
  · refine ⟨Content.mk "page" (Soup.mk "hi" [Tag.mk "button" "Add to Cart" none []]),
      by decide, by decide, by decide⟩

/-- C7 witness: a page with no structured markers is reported `Unknown`. -/
theorem claim_C7_witness : digestStatus (Except.ok "plain page") = DigestStatus.unknown :=
  claim_C7.1 "plain page" (by decide)

/-- Lookup of a freshly inserted key. -/
theorem dictInsert_lookup_self (k : String) (v : Bool) :
    ∀ l : List (String × Bool), (dictInsert k v l).lookup k = some v := by
  intro l
  induction l with
  | nil => simp [dictInsert, List.lookup]
  | cons kv rest ih =>
    obtain ⟨k2, v2⟩ := kv
    by_cases hk : k2 = k
    · simp [dictInsert, hk, List.lookup]
    · simp only [dictInsert, if_neg hk]
      rw [List.lookup_cons]
      have hne : (k == k2) = false := by
        simp [beq_eq_false_iff_ne]
        exact fun h => hk h.symm
      rw [hne]
      exact ih

/-- Lookup of a different key passes an insertion through. -/
theorem dictInsert_lookup_other {k k2 : String} (hne : k ≠ k2) (v : Bool) :
    ∀ l : List (String × Bool), (dictInsert k2 v l).lookup k = l.lookup k := by
  have hbne : (k == k2) = false := by
    simp [beq_eq_false_iff_ne, hne]
  intro l
  induction l with
  | nil =>
    simp only [dictInsert]
    rw [List.lookup_cons, hbne]
  | cons kv rest ih =>
    obtain ⟨k3, v3⟩ := kv
    by_cases hk : k3 = k2
    · subst hk
      rw [show dictInsert k3 v ((k3, v3) :: rest) = (k3, v) :: rest from by simp [dictInsert]]
      rw [List.lookup_cons, List.lookup_cons, hbne]
    · rw [show dictInsert k2 v ((k3, v3) :: rest) = (k3, v3) :: dictInsert k2 v rest from by
        simp [dictInsert, hk]]
      rw [List.lookup_cons, List.lookup_cons]
      cases hkk3 : k == k3 with
      | true => rfl
      | false => exact ih

/-- A key present in the accumulator stays present through the product fold. -/
theorem fold_keeps_key (fetch : String → Except Unit Content) (k : String) :
    ∀ (l : List Product) (acc : List (String × Bool)) (b : Bool),
      acc.lookup k = some b →
      ∃ b2, (l.foldl (fun acc p => dictInsert (pname p) (check_stock fetch p) acc) acc).lookup k
        = some b2 := by
  intro l
  induction l with
  | nil => exact fun acc b h => ⟨b, h⟩
  | cons p rest ih =>
    intro acc b h
    simp only [List.foldl_cons]
    by_cases hk : k = pname p
    · subst hk
      exact ih _ _ (dictInsert_lookup_self _ _ acc)
    · refine ih _ b ?_
      rw [dictInsert_lookup_other hk]
      exact h

/-- Every listed product's name is a key of the folded dict. -/
theorem fold_finds_key (fetch : String → Except Unit Content) :
    ∀ (l : List Product) (p : Product) (acc : List (String × Bool)), p ∈ l →
      ∃ b, (l.foldl (fun acc p => dictInsert (pname p) (check_stock fetch p) acc) acc).lookup
        (pname p) = some b := by
  intro l
  induction l with
  | nil => intro p acc hp; cases hp
  | cons q rest ih =>
    intro p acc hp
    rcases List.mem_cons.mp hp with hpq | hpr
    · subst hpq
      simp only [List.foldl_cons]
      exact fold_keeps_key fetch (pname p) rest _ _ (dictInsert_lookup_self _ _ acc)
    · simp only [List.foldl_cons]
      exact ih p _ hpr

/-- A key named by no product in the list passes the fold through. -/
theorem fold_absent_key (fetch : String → Except Unit Content) (k : String) :
    ∀ (l : List Product) (acc : List (String × Bool)), (∀ q ∈ l, pname q ≠ k) →
      (l.foldl (fun acc p => dictInsert (pname p) (check_stock fetch p) acc) acc).lookup k
        = acc.lookup k := by
  intro l
  induction l with
  | nil => intro acc _; rfl
  | cons q rest ih =>
    intro acc hq
    simp only [List.foldl_cons]
    rw [ih _ (fun r hr => hq r (List.mem_cons_of_mem _ hr))]
    exact dictInsert_lookup_other (fun h => hq q (List.mem_cons_self _ _) h.symm) _ acc

/-- Under pairwise-distinct product names, the folded dict maps each product's
name to that product's own check result. -/
theorem fold_nodup_value (fetch : String → Except Unit Content) :
    ∀ (l : List Product) (p : Product) (acc : List (String × Bool)), p ∈ l →
      (l.map pname).Nodup →
      (l.foldl (fun acc p => dictInsert (pname p) (check_stock fetch p) acc) acc).lookup
        (pname p) = some (check_stock fetch p) := by
  intro l
  induction l with
  | nil => intro p acc hp; cases hp
  | cons q rest ih =>
    intro p acc hp hnd
    simp only [List.map_cons, List.nodup_cons] at hnd
    rcases List.mem_cons.mp hp with hpq | hpr
    · subst hpq
      simp only [List.foldl_cons]
      rw [fold_absent_key fetch (pname p) rest _ ?_]
      · exact dictInsert_lookup_self _ _ acc
      · intro r hr hcon
        exact hnd.1 (List.mem_map.mpr ⟨r, hr, hcon⟩)
    · simp only [List.foldl_cons]
      exact ih p _ hpr hnd.2

/-- C8: a fetch exception on a target makes `check_stock` return false for
it, and `check_all_products` still records an entry for every configured
product — under the standing unique-name assumption, each product's entry
holds that product's own result, whatever the other targets' fetches do. -/
theorem claim_C8 (fetch : String → Except Unit Content) (products : List Product)
    (p : Product) (hp : p ∈ products) :
    (∀ url, p.url = some url → fetch url = Except.error () → check_stock fetch p = false) ∧
    (∃ b, (check_all_products fetch products).lookup (pname p) = some b) ∧
    ((products.map pname).Nodup →
      (check_all_products fetch products).lookup (pname p) = some (check_stock fetch p)) := by
  refine ⟨?_, ?_, ?_⟩
  · intro url hurl herr
    by_cases hu : url = "" <;> simp [check_stock, hurl, hu, herr]
  · exact fold_finds_key fetch products p [] hp
  · intro hnd
    exact fold_nodup_value fetch products p [] hp hnd

/-- C8 witness: with every fetch raising, the single configured product is
reported not in stock. -/
theorem claim_C8_witness :
    (check_all_products (fun _ => Except.error ()) [Product.mk (some "A") (some "u") none]).lookup
      "A" = some false := by
  have h := claim_C8 (fun _ => Except.error ()) [Product.mk (some "A") (some "u") none]
    (Product.mk (some "A") (some "u") none) (List.mem_singleton.mpr rfl)
  have h2 := h.2.2 (by simp [pname])
  have h3 : check_stock (fun _ : String => (Except.error () : Except Unit Content))
      (Product.mk (some "A") (some "u") none) = false := by decide
  rw [h3] at h2
  exact h2
